import Mathlib

/-!
# Verification of the dependency-tree relationship extraction and
  pattern-matching core of `template_extraction.py`

Shallow embedding of the core of the repository:

* tokens are annotated with the spaCy attributes the core reads
  (`orth_`, `pos_`, `dep_`, `lemma_`);
* a parsed sentence is a finite rose tree of such tokens (`STree`);
* a token of a fixed sentence tree is identified by the path of child
  indices leading from the sentence root to it (`List Nat`); the parent of
  a node at path `p ≠ []` is the node at `p.dropLast`, so the ancestor
  chain `[token] + list(token.ancestors)` of the Python code is
  `selfToRootChain p`;
* `find_relationship`, `matching_pattern`, `match_node_pattern`,
  `search_sentence_for_node`, `follow_branch` and
  `search_sentence_for_pattern` are direct translations of the functions
  of the same names in `template_extraction.py` (including the fact that
  `matching_pattern` builds its `branch2` entry from `self.branch1`).
-/

namespace TemplateExtraction

/-- The spaCy token attributes read by the core: literal text `orth_`,
part-of-speech `pos_`, dependency label `dep_`, and `lemma_`. -/
structure Attrs where
  orth_ : String
  pos_ : String
  dep_ : String
  lemma_ : String
deriving DecidableEq, Repr

/-- Names of the attributes a node pattern may constrain
(`getattr(node, attribute + "_")` in the Python code). -/
inductive Attr where
  | orth_ | pos_ | dep_ | lemma_
deriving DecidableEq, Repr

/-- `getattr(node, attribute + "_")`. -/
def getattr (node : Attrs) : Attr → String
  | Attr.orth_ => node.orth_
  | Attr.pos_ => node.pos_
  | Attr.dep_ => node.dep_
  | Attr.lemma_ => node.lemma_

/-- A node pattern: the Python dictionaries such as
`{"lemma": "raise", "pos": "VERB"}`, as a list of attribute/value pairs. -/
abbrev NodePat := List (Attr × String)

/-- `match_node_pattern(node, pattern)`: every attribute named in the
pattern has the required value on the node. -/
def match_node_pattern (node : Attrs) (pattern : NodePat) : Bool :=
  pattern.all (fun kv => getattr node kv.1 == kv.2)

/-- A parsed sentence: a finite rose tree of annotated tokens. -/
inductive STree where
  | mk (attrs : Attrs) (children : List STree)

/-- The attributes of the root token of a (sub)tree. -/
def STree.attrs : STree → Attrs
  | STree.mk a _ => a

/-- The `children` of the root token of a (sub)tree. -/
def STree.children : STree → List STree
  | STree.mk _ cs => cs

/-- `search_sentence_for_node(node, node_pattern)`: depth-first traversal
collecting every node of the subtree that matches the pattern. -/
def search_sentence_for_node (node : STree) (node_pattern : NodePat) :
    List STree :=
  match node with
  | STree.mk a cs =>
    (if match_node_pattern a node_pattern then [STree.mk a cs] else []) ++
      (cs.attach.map (fun c => search_sentence_for_node c.1 node_pattern)).flatten
termination_by sizeOf node
decreasing_by
  simp_wf
  have := List.sizeOf_lt_of_mem c.2
  omega

/-- `follow_branch(node, branch)`: count the ways of descending from
`node` along children matching the successive node patterns of `branch`;
an exhausted branch counts 1, a step with no matching child counts 0. -/
def follow_branch (node : STree) (branch : List NodePat) : Nat :=
  match branch with
  | [] => 1
  | b0 :: rest =>
    let ms := node.children.filter (fun child => match_node_pattern child.attrs b0)
    if ms.isEmpty then 0
    else (ms.map (fun m => follow_branch m rest)).sum

/-- The `common_ancestor` entry of a pattern: the `{pos, lemma}`
dictionary extracted for the fork node. -/
structure AncSpec where
  pos_ : String
  lemma_ : String
deriving DecidableEq, Repr

/-- One entry of a branch spec: a `{pos, dep}` dictionary. -/
structure BranchSpecItem where
  pos_ : String
  dep_ : String
deriving DecidableEq, Repr

/-- The dictionary `{"pos": …, "lemma": …}` of a fork spec. -/
def AncSpec.toPat (s : AncSpec) : NodePat :=
  [(Attr.pos_, s.pos_), (Attr.lemma_, s.lemma_)]

/-- The dictionary `{"pos": …, "dep": …}` of a branch-spec entry. -/
def BranchSpecItem.toPat (s : BranchSpecItem) : NodePat :=
  [(Attr.pos_, s.pos_), (Attr.dep_, s.dep_)]

/-- A pattern as produced by `Relationship.matching_pattern` and consumed
by `search_sentence_for_pattern`. -/
structure Pattern where
  common_ancestor : AncSpec
  branch1 : List BranchSpecItem
  branch2 : List BranchSpecItem
deriving DecidableEq, Repr

/-- `search_sentence_for_pattern(sentence, pattern)`: locate every
candidate fork matching `pattern["common_ancestor"]` by full depth-first
search from the sentence root, and add up
`branch1_matches * branch2_matches` over the candidate forks. -/
def search_sentence_for_pattern (sentence_root : STree) (pattern : Pattern) :
    Nat :=
  let com_anc_matches :=
    search_sentence_for_node sentence_root pattern.common_ancestor.toPat
  (com_anc_matches.map (fun com_anc_match =>
      follow_branch com_anc_match (pattern.branch1.map BranchSpecItem.toPat) *
      follow_branch com_anc_match (pattern.branch2.map BranchSpecItem.toPat))).sum

/-! ## Tokens as paths, ancestor chains, and `find_relationship` -/

/-- The node of `t` reached by following the child indices of the path
`p` from the root of `t`. -/
def nodeAt : STree → List Nat → Option STree
  | t, [] => some t
  | t, i :: p =>
    match t.children[i]? with
    | some c => nodeAt c p
    | none => none

/-- The ancestor chain `[token] + list(token.ancestors)` of the token at
path `p`: `p` itself, then its parent `p.dropLast`, and so on up to the
root `[]`. -/
def selfToRootChain (p : List Nat) : List (List Nat) :=
  match p with
  | [] => [[]]
  | i :: q => (i :: q) :: selfToRootChain ((i :: q).dropLast)
termination_by p.length
decreasing_by simp [List.length_dropLast]

/-- The two failure modes of `Relationship.find_relationship`:
"The two tokens … are unrelated!" and "There is ambiguity about the
chain before it forks". -/
inductive RelErr where
  | unrelated
  | ambiguous
deriving DecidableEq, Repr

/-- `Relationship.find_relationship` acting on the two ancestor chains:
find the first token of `chain1` that also occurs in `chain2`; if there
is none, fail with the "unrelated" error; otherwise cut both chains at
that token, check that the two remaining upper chains agree (else fail
with the "ambiguity" error), and return `(common_ancestors, branch1,
branch2)`, the common part reversed to root-first order and the branches
reversed to top-down order. -/
def find_relationship (chain1 chain2 : List (List Nat)) :
    Except RelErr (List (List Nat) × List (List Nat) × List (List Nat)) :=
  match chain1.find? (fun token => decide (token ∈ chain2)) with
  | none => Except.error RelErr.unrelated
  | some tok =>
    let i1 := chain1.indexOf tok
    let i2 := chain2.indexOf tok
    let branch1 := (chain1.take i1).reverse
    let branch2 := (chain2.take i2).reverse
    if chain1.drop i1 ≠ chain2.drop i2 then Except.error RelErr.ambiguous
    else Except.ok ((chain1.drop i1).reverse, branch1, branch2)

/-- The data stored by `Relationship.__init__`: the two tokens and the
`(common_ancestors, branch1, branch2)` triple of `find_relationship`. -/
structure Relationship where
  token1 : List Nat
  token2 : List Nat
  common_ancestors : List (List Nat)
  branch1 : List (List Nat)
  branch2 : List (List Nat)
deriving DecidableEq, Repr

/-- `Relationship(token1, token2)`: build the ancestor chains of the two
tokens and run `find_relationship`, propagating its errors. -/
def Relationship.init (token1 token2 : List Nat) :
    Except RelErr Relationship :=
  (find_relationship (selfToRootChain token1) (selfToRootChain token2)).map
    (fun r => ⟨token1, token2, r.1, r.2.1, r.2.2⟩)

/-- `Relationship.forking_node`: the last entry of `common_ancestors`. -/
def forking_node (r : Relationship) : Option (List Nat) :=
  r.common_ancestors.getLast?

/-- `Relationship.matching_pattern`, reading the attributes of the stored
tokens off the tree `t`.  Note line 88 of the source: the `branch2` spec
is built from `self.branch1`. -/
def matching_pattern (t : STree) (r : Relationship) : Option Pattern := do
  let forkPath ← forking_node r
  let fork ← nodeAt t forkPath
  let b1 ← r.branch1.mapM (nodeAt t)
  pure { common_ancestor := { pos_ := fork.attrs.pos_, lemma_ := fork.attrs.lemma_ }
         branch1 := b1.map (fun node =>
           { pos_ := node.attrs.pos_, dep_ := node.attrs.dep_ })
         branch2 := b1.map (fun node =>
           { pos_ := node.attrs.pos_, dep_ := node.attrs.dep_ }) }

/-! ## Specification-side notions used to state the claims -/

/-- All nodes of a tree, in depth-first order. -/
def allNodes (t : STree) : List STree :=
  match t with
  | STree.mk a cs =>
    STree.mk a cs :: (cs.attach.map (fun c => allNodes c.1)).flatten
termination_by sizeOf t
decreasing_by simp_wf; have := List.sizeOf_lt_of_mem c.2; omega

/-- The descent paths below `node` satisfying a branch spec: at step `k`
the path picks a child (recorded by its index) matching the `k`-th node
pattern of the spec. -/
def branch_paths (node : STree) (branch : List NodePat) : List (List Nat) :=
  match branch with
  | [] => [[]]
  | b0 :: rest =>
    ((node.children.enum.filter
        (fun ic => match_node_pattern ic.2.attrs b0)).map
      (fun ic => (branch_paths ic.2 rest).map (fun path => ic.1 :: path))).flatten

/-- Longest common prefix of two paths. -/
def lcp : List Nat → List Nat → List Nat
  | a :: as, b :: bs => if a = b then a :: lcp as bs else []
  | _, _ => []

/-- The part of the ancestor chain of `p` strictly below the ancestor
`f`, in self-to-fork order (the `chain[:i]` slice of
`find_relationship`). -/
def belowRev (p f : List Nat) : List (List Nat) :=
  if p.length ≤ f.length then []
  else p :: belowRev p.dropLast f
termination_by p.length
decreasing_by simp [List.length_dropLast]; omega

/-- The paths of the successive nodes descending from `f` along the
child-index suffix `s`. -/
def stepsFrom (f : List Nat) : List Nat → List (List Nat)
  | [] => []
  | i :: s => (f ++ [i]) :: stepsFrom (f ++ [i]) s

/-- `ns` is a chain of successive children descending from `n`. -/
def IsDescent : STree → List STree → Prop
  | _, [] => True
  | n, c :: rest => c ∈ n.children ∧ IsDescent c rest

mutual
/-- The two trees have the same shape and the same `pos_`, `dep_` and
`lemma_` on corresponding nodes; the literal text `orth_` is
unconstrained. -/
def sameLabels : STree → STree → Bool
  | STree.mk a cs, STree.mk b ds =>
    a.pos_ == b.pos_ && a.dep_ == b.dep_ && a.lemma_ == b.lemma_ &&
      sameLabelsList cs ds

/-- Pointwise `sameLabels` on two child lists of equal length. -/
def sameLabelsList : List STree → List STree → Bool
  | [], [] => true
  | c :: cs, d :: ds => sameLabels c d && sameLabelsList cs ds
  | _, _ => false
end

/-- A concrete parsed sentence used on concrete inputs: spec section 8's
scenario `root(pos=VERB, lemma "raise")` with children
`A(pos=NOUN, dep=nsubj)` and `B(pos=NOUN, dep=dobj)`. -/
def exTree : STree :=
  STree.mk ⟨"raised", "VERB", "ROOT", "raise"⟩
    [STree.mk ⟨"Balderton", "NOUN", "nsubj", "balderton"⟩ [],
     STree.mk ⟨"startup", "NOUN", "dobj", "startup"⟩ []]

/-! ## Basic lemmas -/

@[simp] theorem STree.attrs_mk (a : Attrs) (cs : List STree) :
    (STree.mk a cs).attrs = a := rfl

@[simp] theorem STree.children_mk (a : Attrs) (cs : List STree) :
    (STree.mk a cs).children = cs := rfl

/-! ## Elementary facts about `<+:` (ancestor paths) -/

theorem isPre_rfl (l : List Nat) : l <+: l := ⟨[], List.append_nil l⟩

theorem isPre_nil (l : List Nat) : [] <+: l := ⟨l, rfl⟩

theorem isPre_trans {a b c : List Nat} (h1 : a <+: b) (h2 : b <+: c) :
    a <+: c := by
  obtain ⟨r1, rfl⟩ := h1
  obtain ⟨r2, rfl⟩ := h2
  exact ⟨r1 ++ r2, by rw [List.append_assoc]⟩

theorem isPre_length {a b : List Nat} (h : a <+: b) : a.length ≤ b.length := by
  obtain ⟨r, rfl⟩ := h
  simp

theorem isPre_antisymm {a b : List Nat} (h1 : a <+: b)
    (h2 : b.length ≤ a.length) : a = b := by
  obtain ⟨r, rfl⟩ := h1
  rw [List.length_append] at h2
  have hr : r = [] := List.eq_nil_of_length_eq_zero (by omega)
  subst hr
  simp

theorem isPre_concat {q p : List Nat} {i : Nat} :
    q <+: p ++ [i] ↔ q = p ++ [i] ∨ q <+: p := by
  constructor
  · rintro ⟨r, hr⟩
    cases r using List.reverseRecOn with
    | nil => left; simpa using hr
    | append_singleton r' j =>
      right
      rw [← List.append_assoc] at hr
      have hd := congrArg List.dropLast hr
      simp only [List.dropLast_concat] at hd
      exact ⟨r', hd⟩
  · rintro (rfl | ⟨r, rfl⟩)
    · exact isPre_rfl _
    · exact ⟨r ++ [i], by rw [List.append_assoc]⟩

theorem isPre_dropLast {q p : List Nat} (h : q <+: p) (hne : q ≠ p) :
    q <+: p.dropLast := by
  obtain ⟨r, rfl⟩ := h
  cases r with
  | nil => exact absurd (by simp) hne
  | cons x r' =>
    rw [List.dropLast_append_of_ne_nil _ (by simp)]
    exact ⟨(x :: r').dropLast, rfl⟩

/-! ## Properties of `selfToRootChain` -/

@[simp] theorem selfToRootChain_nil : selfToRootChain [] = [[]] := by
  simp [selfToRootChain]

theorem selfToRootChain_of_ne_nil {p : List Nat} (h : p ≠ []) :
    selfToRootChain p = p :: selfToRootChain p.dropLast := by
  cases p with
  | nil => exact absurd rfl h
  | cons i q => simp [selfToRootChain]

theorem selfToRootChain_eq_cons (p : List Nat) :
    ∃ rest, selfToRootChain p = p :: rest := by
  cases p with
  | nil => exact ⟨[], by simp⟩
  | cons i q => exact ⟨_, selfToRootChain_of_ne_nil (by simp)⟩

theorem mem_selfToRootChain {p q : List Nat} :
    q ∈ selfToRootChain p ↔ q <+: p := by
  induction p using List.reverseRecOn with
  | nil =>
    simp only [selfToRootChain_nil, List.mem_singleton]
    constructor
    · rintro rfl; exact isPre_rfl _
    · intro h
      exact isPre_antisymm h (by simp)
  | append_singleton p' i ih =>
    rw [selfToRootChain_of_ne_nil (by simp), List.dropLast_concat]
    simp only [List.mem_cons, ih, isPre_concat]

/-! ## Properties of `lcp` -/

@[simp] theorem lcp_nil_left (bs : List Nat) : lcp [] bs = [] := by
  cases bs <;> simp [lcp]

@[simp] theorem lcp_nil_right (as : List Nat) : lcp as [] = [] := by
  cases as <;> simp [lcp]

@[simp] theorem lcp_cons_self (a : Nat) (as bs : List Nat) :
    lcp (a :: as) (a :: bs) = a :: lcp as bs := by
  simp [lcp]

theorem lcp_cons_ne {a b : Nat} (h : a ≠ b) (as bs : List Nat) :
    lcp (a :: as) (b :: bs) = [] := by
  simp [lcp, h]

theorem lcp_isPre_left : ∀ as bs : List Nat, lcp as bs <+: as := by
  intro as
  induction as with
  | nil => intro bs; simp [isPre_rfl]
  | cons a as ih =>
    intro bs
    cases bs with
    | nil => simp [isPre_nil]
    | cons b bs =>
      by_cases hab : a = b
      · subst hab
        rw [lcp_cons_self]
        obtain ⟨r, hr⟩ := ih bs
        exact ⟨r, by rw [List.cons_append, hr]⟩
      · rw [lcp_cons_ne hab]
        exact isPre_nil _

theorem lcp_comm : ∀ as bs : List Nat, lcp as bs = lcp bs as := by
  intro as
  induction as with
  | nil => intro bs; simp
  | cons a as ih =>
    intro bs
    cases bs with
    | nil => simp
    | cons b bs =>
      by_cases hab : a = b
      · subst hab; simp [ih]
      · rw [lcp_cons_ne hab, lcp_cons_ne (Ne.symm hab)]

theorem lcp_isPre_right (as bs : List Nat) : lcp as bs <+: bs := by
  rw [lcp_comm]; exact lcp_isPre_left bs as

theorem isPre_lcp : ∀ {q as bs : List Nat}, q <+: as → q <+: bs →
    q <+: lcp as bs := by
  intro q
  induction q with
  | nil => intro as bs _ _; exact isPre_nil _
  | cons x q ih =>
    intro as bs h1 h2
    obtain ⟨r1, hr1⟩ := h1
    obtain ⟨r2, hr2⟩ := h2
    subst hr1 hr2
    simp only [List.cons_append, lcp_cons_self]
    obtain ⟨r, hr⟩ := ih (⟨r1, rfl⟩ : q <+: q ++ r1) (⟨r2, rfl⟩ : q <+: q ++ r2)
    exact ⟨r, by rw [List.cons_append, hr]⟩

theorem lcp_self (p : List Nat) : lcp p p = p :=
  isPre_antisymm (lcp_isPre_left p p)
    (isPre_length (isPre_lcp (isPre_rfl p) (isPre_rfl p)))

/-! ## Properties of `belowRev` and the decomposition of ancestor chains -/

theorem belowRev_of_le {p f : List Nat} (h : p.length ≤ f.length) :
    belowRev p f = [] := by
  rw [belowRev, if_pos h]

theorem belowRev_of_gt {p f : List Nat} (h : f.length < p.length) :
    belowRev p f = p :: belowRev p.dropLast f := by
  rw [belowRev, if_neg (by omega)]

theorem selfToRootChain_decomp : ∀ {p f : List Nat}, f <+: p →
    selfToRootChain p = belowRev p f ++ selfToRootChain f := by
  intro p
  induction p using List.reverseRecOn with
  | nil =>
    intro f hf
    have : f = [] := isPre_antisymm hf (by simp [isPre_length hf])
    subst this
    rw [belowRev_of_le (by simp)]
    rfl
  | append_singleton p' i ih =>
    intro f hf
    rcases isPre_concat.mp hf with rfl | hf'
    · rw [belowRev_of_le le_rfl]
      rfl
    · have hlt : f.length < (p' ++ [i]).length := by
        have := isPre_length hf'
        simp only [List.length_append, List.length_cons, List.length_nil]
        omega
      rw [belowRev_of_gt hlt, List.dropLast_concat,
        selfToRootChain_of_ne_nil (by simp), List.dropLast_concat,
        ih hf', List.cons_append]

theorem mem_belowRev_length : ∀ {p f q : List Nat}, q ∈ belowRev p f →
    f.length < q.length := by
  intro p
  induction p using List.reverseRecOn with
  | nil =>
    intro f q hq
    rw [belowRev_of_le (by simp)] at hq
    simp at hq
  | append_singleton p' i ih =>
    intro f q hq
    by_cases h : (p' ++ [i]).length ≤ f.length
    · rw [belowRev_of_le h] at hq
      simp at hq
    · rw [belowRev_of_gt (by omega), List.dropLast_concat] at hq
      rcases List.mem_cons.mp hq with rfl | hq'
      · omega
      · exact ih hq'

theorem mem_belowRev_isPre : ∀ {p f q : List Nat}, q ∈ belowRev p f →
    q <+: p := by
  intro p
  induction p using List.reverseRecOn with
  | nil =>
    intro f q hq
    rw [belowRev_of_le (by simp)] at hq
    simp at hq
  | append_singleton p' i ih =>
    intro f q hq
    by_cases h : (p' ++ [i]).length ≤ f.length
    · rw [belowRev_of_le h] at hq
      simp at hq
    · rw [belowRev_of_gt (by omega), List.dropLast_concat] at hq
      rcases List.mem_cons.mp hq with rfl | hq'
      · exact isPre_rfl _
      · exact isPre_trans (ih hq') ⟨[i], rfl⟩

theorem indexOf_cons_head (a : List Nat) (l : List (List Nat)) :
    (a :: l).indexOf a = 0 := by
  simp [List.indexOf_cons]

theorem indexOf_append_notMem {a : List Nat} :
    ∀ {l1 : List (List Nat)} (l2 : List (List Nat)), a ∉ l1 →
      (l1 ++ l2).indexOf a = l1.length + l2.indexOf a := by
  intro l1
  induction l1 with
  | nil => intro l2 _; simp
  | cons x l1 ih =>
    intro l2 h
    simp only [List.mem_cons, not_or] at h
    obtain ⟨hxa, hl1⟩ := h
    rw [List.cons_append, List.indexOf_cons]
    have hbeq : (x == a) = false := by
      simp only [beq_eq_false_iff_ne, ne_eq]
      exact fun he => hxa he.symm
    rw [hbeq, cond_false, ih l2 hl1]
    simp only [List.length_cons]
    omega

/-- The central computation: on the ancestor chains of two paths of one
tree, `find_relationship` never fails, the common part is the ancestor
chain of the longest common prefix of the two paths (in root-first
order), and the branches are the below-fork parts of the two chains (in
top-down order). -/
theorem find_relationship_selfToRoot (p1 p2 : List Nat) :
    find_relationship (selfToRootChain p1) (selfToRootChain p2) =
      Except.ok ((selfToRootChain (lcp p1 p2)).reverse,
        (belowRev p1 (lcp p1 p2)).reverse,
        (belowRev p2 (lcp p1 p2)).reverse) := by
  have hL1 : lcp p1 p2 <+: p1 := lcp_isPre_left p1 p2
  have hL2 : lcp p1 p2 <+: p2 := lcp_isPre_right p1 p2
  have hdec1 := selfToRootChain_decomp hL1
  have hdec2 := selfToRootChain_decomp hL2
  obtain ⟨rest, hrest⟩ := selfToRootChain_eq_cons (lcp p1 p2)
  have hfind : (selfToRootChain p1).find?
      (fun tok => decide (tok ∈ selfToRootChain p2)) = some (lcp p1 p2) := by
    rw [hdec1, List.find?_append]
    have h1 : (belowRev p1 (lcp p1 p2)).find?
        (fun tok => decide (tok ∈ selfToRootChain p2)) = none := by
      rw [List.find?_eq_none]
      intro x hx
      simp only [decide_eq_true_eq]
      intro hmem
      have hle := isPre_length
        (isPre_lcp (mem_belowRev_isPre hx) (mem_selfToRootChain.mp hmem))
      have := mem_belowRev_length hx
      omega
    rw [h1, Option.none_or, hrest, List.find?_cons_of_pos]
    simp only [decide_eq_true_eq]
    exact mem_selfToRootChain.mpr hL2
  have hnm1 : lcp p1 p2 ∉ belowRev p1 (lcp p1 p2) := fun hx => by
    have := mem_belowRev_length hx; omega
  have hnm2 : lcp p1 p2 ∉ belowRev p2 (lcp p1 p2) := fun hx => by
    have := mem_belowRev_length hx; omega
  have hidx1 : (selfToRootChain p1).indexOf (lcp p1 p2) =
      (belowRev p1 (lcp p1 p2)).length := by
    rw [hdec1, indexOf_append_notMem _ hnm1, hrest, indexOf_cons_head]
    omega
  have hidx2 : (selfToRootChain p2).indexOf (lcp p1 p2) =
      (belowRev p2 (lcp p1 p2)).length := by
    rw [hdec2, indexOf_append_notMem _ hnm2, hrest, indexOf_cons_head]
    omega
  have htake1 : (selfToRootChain p1).take ((belowRev p1 (lcp p1 p2)).length) =
      belowRev p1 (lcp p1 p2) := by
    rw [hdec1, List.take_left]
  have htake2 : (selfToRootChain p2).take ((belowRev p2 (lcp p1 p2)).length) =
      belowRev p2 (lcp p1 p2) := by
    rw [hdec2, List.take_left]
  have hdrop1 : (selfToRootChain p1).drop ((belowRev p1 (lcp p1 p2)).length) =
      selfToRootChain (lcp p1 p2) := by
    rw [hdec1, List.drop_left]
  have hdrop2 : (selfToRootChain p2).drop ((belowRev p2 (lcp p1 p2)).length) =
      selfToRootChain (lcp p1 p2) := by
    rw [hdec2, List.drop_left]
  unfold find_relationship
  rw [hfind]
  simp only [hidx1, hidx2, htake1, htake2, hdrop1, hdrop2, ne_eq,
    not_true_eq_false, if_false]

/-- `Relationship(token1, token2)` on two paths of one tree always
succeeds, with the common ancestors, branch1 and branch2 determined by
the longest common prefix. -/
theorem Relationship.init_eq (p1 p2 : List Nat) :
    Relationship.init p1 p2 = Except.ok
      ⟨p1, p2, (selfToRootChain (lcp p1 p2)).reverse,
        (belowRev p1 (lcp p1 p2)).reverse,
        (belowRev p2 (lcp p1 p2)).reverse⟩ := by
  rw [Relationship.init, find_relationship_selfToRoot]
  rfl

theorem head?_selfToRootChain (p : List Nat) :
    (selfToRootChain p).head? = some p := by
  obtain ⟨rest, hrest⟩ := selfToRootChain_eq_cons p
  rw [hrest]
  rfl

/-! ## Claims about the Relationship Finder -/

/-- C3: for two nodes of one tree, the relationship is built
successfully and its `forking_node` is a common ancestor (a member of
both self-to-root chains) of the two tokens, and every common ancestor
of the two tokens is an ancestor-or-self of it — so no proper descendant
of the fork is a common ancestor: the fork is the lowest common
ancestor. -/
theorem forking_node_is_lca (t : STree) (p1 p2 : List Nat)
    (h1 : (nodeAt t p1).isSome = true) (h2 : (nodeAt t p2).isSome = true) :
    ∃ r, Relationship.init p1 p2 = Except.ok r ∧
      ∃ f, forking_node r = some f ∧
        f ∈ selfToRootChain p1 ∧ f ∈ selfToRootChain p2 ∧
        ∀ q, q ∈ selfToRootChain p1 → q ∈ selfToRootChain p2 → q <+: f := by
  refine ⟨_, Relationship.init_eq p1 p2, lcp p1 p2, ?_, ?_, ?_, ?_⟩
  · rw [forking_node]
    simp only [List.getLast?_reverse]
    exact head?_selfToRootChain _
  · exact mem_selfToRootChain.mpr (lcp_isPre_left p1 p2)
  · exact mem_selfToRootChain.mpr (lcp_isPre_right p1 p2)
  · intro q hq1 hq2
    exact isPre_lcp (mem_selfToRootChain.mp hq1) (mem_selfToRootChain.mp hq2)

/-- Witness for C3 at a concrete tree and node pair. -/
theorem forking_node_is_lca_witness :
    (nodeAt exTree [0]).isSome = true ∧
    (nodeAt exTree [1]).isSome = true ∧
    ∃ r, Relationship.init [0] [1] = Except.ok r ∧
      ∃ f, forking_node r = some f ∧
        f ∈ selfToRootChain [0] ∧ f ∈ selfToRootChain [1] ∧
        ∀ q, q ∈ selfToRootChain [0] → q ∈ selfToRootChain [1] → q <+: f :=
  ⟨by simp [nodeAt, exTree], by simp [nodeAt, exTree],
    forking_node_is_lca exTree [0] [1]
      (by simp [nodeAt, exTree]) (by simp [nodeAt, exTree])⟩

/-- C5: `find_relationship` is symmetric — swapping the two tokens
yields the same `common_ancestors` chain (hence the same fork) with
`branch1` and `branch2` exchanged. -/
theorem find_relationship_swap (t : STree) (p1 p2 : List Nat)
    (h1 : (nodeAt t p1).isSome = true) (h2 : (nodeAt t p2).isSome = true) :
    ∃ ca b1 b2,
      Relationship.init p1 p2 = Except.ok ⟨p1, p2, ca, b1, b2⟩ ∧
      Relationship.init p2 p1 = Except.ok ⟨p2, p1, ca, b2, b1⟩ := by
  refine ⟨_, _, _, Relationship.init_eq p1 p2, ?_⟩
  rw [Relationship.init_eq p2 p1, lcp_comm p2 p1]

/-- Witness for C5 at a concrete tree and node pair. -/
theorem find_relationship_swap_witness :
    (nodeAt exTree [0]).isSome = true ∧
    ∃ ca b1 b2,
      Relationship.init [0] [1] = Except.ok ⟨[0], [1], ca, b1, b2⟩ ∧
      Relationship.init [1] [0] = Except.ok ⟨[1], [0], ca, b2, b1⟩ :=
  ⟨by simp [nodeAt, exTree],
    find_relationship_swap
      exTree [0] [1]
      (by simp [nodeAt, exTree]) (by simp [nodeAt, exTree])⟩

/-- C7: `find_relationship` fails with the "unrelated tokens" error
exactly when the two ancestor chains share no element; whenever they do
share one, that error is not raised. -/
theorem unrelated_iff_disjoint (chain1 chain2 : List (List Nat)) :
    find_relationship chain1 chain2 = Except.error RelErr.unrelated ↔
      ∀ x ∈ chain1, x ∉ chain2 := by
  cases hf : chain1.find? (fun token => decide (token ∈ chain2)) with
  | none =>
    have hred : find_relationship chain1 chain2 =
        Except.error RelErr.unrelated := by
      unfold find_relationship
      rw [hf]
    simp only [List.find?_eq_none, decide_eq_true_eq] at hf
    exact iff_of_true hred hf
  | some tok =>
    have hred : find_relationship chain1 chain2 =
        if chain1.drop (chain1.indexOf tok) ≠ chain2.drop (chain2.indexOf tok)
        then Except.error RelErr.ambiguous
        else Except.ok ((chain1.drop (chain1.indexOf tok)).reverse,
          (chain1.take (chain1.indexOf tok)).reverse,
          (chain2.take (chain2.indexOf tok)).reverse) := by
      unfold find_relationship
      rw [hf]
    have htok : tok ∈ chain2 := by
      have := List.find?_some hf
      simpa using this
    have hmem : tok ∈ chain1 := List.mem_of_find?_eq_some hf
    rw [hred]
    constructor
    · intro h
      by_cases hc :
          chain1.drop (chain1.indexOf tok) ≠ chain2.drop (chain2.indexOf tok)
      · rw [if_pos hc] at h
        simp at h
      · rw [if_neg hc] at h
        simp at h
    · intro hdisj
      exact absurd htok (hdisj tok hmem)

/-- C8: under the precondition that the two tokens are nodes of one
well-formed tree, the structural-integrity check never fires — the
"ambiguity about the chain before it forks" error is unreachable — while
on malformed chains that disagree above their first shared element
(two disconnected roots) it is raised. -/
theorem ambiguity_unreachable (t : STree) (p1 p2 : List Nat)
    (h1 : (nodeAt t p1).isSome = true) (h2 : (nodeAt t p2).isSome = true) :
    Relationship.init p1 p2 ≠ Except.error RelErr.ambiguous ∧
    find_relationship [[9], [1]] [[9], [2]] = Except.error RelErr.ambiguous := by
  constructor
  · rw [Relationship.init_eq]
    simp
  · rfl

/-- Witness for C8 at a concrete tree and node pair. -/
theorem ambiguity_unreachable_witness :
    (nodeAt exTree [0]).isSome = true ∧
    Relationship.init [0] [1] ≠ Except.error RelErr.ambiguous ∧
    find_relationship [[9], [1]] [[9], [2]] = Except.error RelErr.ambiguous :=
  ⟨by simp [nodeAt, exTree],
    ambiguity_unreachable
      exTree [0] [1]
      (by simp [nodeAt, exTree]) (by simp [nodeAt, exTree])⟩

/-- C10: `Relationship(a, a)` succeeds, its fork is `a` itself, both
branches are empty, and `common_ancestors` is the full ancestor chain of
`a` in root-first order ending at `a`. -/
theorem self_relationship (t : STree) (p : List Nat)
    (h : (nodeAt t p).isSome = true) :
    Relationship.init p p = Except.ok
      ⟨p, p, (selfToRootChain p).reverse, [], []⟩ ∧
    forking_node ⟨p, p, (selfToRootChain p).reverse, [], []⟩ = some p := by
  constructor
  · rw [Relationship.init_eq, lcp_self, belowRev_of_le le_rfl]
    rfl
  · rw [forking_node]
    simp only [List.getLast?_reverse]
    exact head?_selfToRootChain _

/-- Witness for C10 at a concrete tree and node. -/
theorem self_relationship_witness :
    (nodeAt exTree [1]).isSome = true ∧
    Relationship.init [1] [1] = Except.ok
      ⟨[1], [1], (selfToRootChain [1]).reverse, [], []⟩ ∧
    forking_node ⟨[1], [1], (selfToRootChain [1]).reverse, [], []⟩ =
      some [1] :=
  ⟨by simp [nodeAt, exTree],
    self_relationship
      exTree [1]
      (by simp [nodeAt, exTree])⟩

/-! ## The Pattern Matcher: fork search and branch following -/

theorem STree.ind (P : STree → Prop)
    (h : ∀ a cs, (∀ c ∈ cs, P c) → P (STree.mk a cs)) : ∀ t, P t := by
  have key : ∀ n, ∀ t : STree, sizeOf t ≤ n → P t := by
    intro n
    induction n with
    | zero =>
      intro t ht
      cases t with
      | mk a cs => simp at ht
    | succ n ih =>
      intro t ht
      cases t with
      | mk a cs =>
        refine h a cs (fun c hc => ih c ?_)
        have h1 := List.sizeOf_lt_of_mem hc
        have h2 : sizeOf (STree.mk a cs) = 1 + sizeOf a + sizeOf cs := by
          simp
        omega
  exact fun t => key (sizeOf t) t le_rfl

theorem search_sentence_for_node_unfold (a : Attrs) (cs : List STree)
    (pat : NodePat) :
    search_sentence_for_node (STree.mk a cs) pat =
      (if match_node_pattern a pat then [STree.mk a cs] else []) ++
        (cs.map (fun c => search_sentence_for_node c pat)).flatten := by
  rw [search_sentence_for_node]
  rw [List.attach_map_val cs (fun c => search_sentence_for_node c pat)]

theorem allNodes_unfold (a : Attrs) (cs : List STree) :
    allNodes (STree.mk a cs) =
      STree.mk a cs :: (cs.map allNodes).flatten := by
  rw [allNodes]
  rw [List.attach_map_val cs allNodes]

theorem follow_branch_cons (n : STree) (b0 : NodePat) (rest : List NodePat) :
    follow_branch n (b0 :: rest) =
      ((n.children.filter (fun c => match_node_pattern c.attrs b0)).map
        (fun m => follow_branch m rest)).sum := by
  show (if (n.children.filter
        (fun c => match_node_pattern c.attrs b0)).isEmpty then 0
      else ((n.children.filter (fun c => match_node_pattern c.attrs b0)).map
        (fun m => follow_branch m rest)).sum) = _
  cases hms : n.children.filter (fun c => match_node_pattern c.attrs b0) with
  | nil => rfl
  | cons m ms => rfl

/-- The fork search is the filter of the full depth-first node list. -/
theorem search_eq_filter (pat : NodePat) : ∀ t : STree,
    search_sentence_for_node t pat =
      (allNodes t).filter (fun n => match_node_pattern n.attrs pat) := by
  intro t
  induction t using STree.ind with
  | h a cs ih =>
    rw [search_sentence_for_node_unfold, allNodes_unfold, List.filter_cons]
    simp only [STree.attrs_mk, List.filter_flatten, List.map_map]
    have hmaps : cs.map (fun c => search_sentence_for_node c pat) =
        cs.map ((fun l => l.filter (fun n => match_node_pattern n.attrs pat))
          ∘ allNodes) := by
      apply List.map_congr_left
      intro c hc
      exact ih c hc
    rw [hmaps]
    by_cases hm : match_node_pattern a pat
    · simp [hm]
    · simp [hm]

/-- `follow_branch` counts exactly the matching descent paths. -/
theorem follow_branch_eq_length : ∀ (branch : List NodePat) (n : STree),
    follow_branch n branch = (branch_paths n branch).length := by
  intro branch
  induction branch with
  | nil => intro n; rfl
  | cons b0 rest ih =>
    intro n
    have hms : n.children.filter (fun c => match_node_pattern c.attrs b0) =
        (n.children.enum.filter
          (fun ic => match_node_pattern ic.2.attrs b0)).map Prod.snd := by
      conv_lhs => rw [← List.enum_map_snd n.children]
      rw [List.filter_map]
      rfl
    rw [follow_branch_cons, branch_paths, List.length_flatten,
      List.map_map, hms, List.map_map]
    apply congrArg List.sum
    apply List.map_congr_left
    intro ic _
    simp only [Function.comp_apply, List.length_map]
    exact ih ic.2

theorem sum_map_filter_eq (l : List STree) (p : STree → Bool)
    (f : STree → Nat) :
    ((l.filter p).map f).sum = (l.map (fun n => if p n then f n else 0)).sum := by
  induction l with
  | nil => rfl
  | cons x l ih =>
    rw [List.filter_cons]
    by_cases hx : p x
    · simp [hx, ih]
    · simp [hx, ih]

/-- The descent paths counted by `branch_paths` are pairwise distinct:
each one is the list of child indices chosen at the successive steps. -/
theorem branch_paths_nodup : ∀ (branch : List NodePat) (n : STree),
    (branch_paths n branch).Nodup := by
  intro branch
  induction branch with
  | nil => intro n; simp [branch_paths]
  | cons b0 rest ih =>
    intro n
    rw [branch_paths, List.nodup_flatten]
    constructor
    · intro l hl
      rw [List.mem_map] at hl
      obtain ⟨ic, _, rfl⟩ := hl
      exact (ih ic.2).map (fun p q hpq => by injection hpq)
    · rw [List.pairwise_map]
      have hfst : (n.children.enum.filter
          (fun ic => match_node_pattern ic.2.attrs b0)).Pairwise
          (fun ic jc => ic.1 ≠ jc.1) := by
        apply List.Pairwise.sublist (List.filter_sublist _)
        have hnd : (n.children.enum.map Prod.fst).Nodup := by
          rw [List.enum_map_fst]
          exact List.nodup_range _
        rw [List.Nodup, List.pairwise_map] at hnd
        exact hnd
      refine hfst.imp ?_
      intro ic jc hne
      intro x hx hy
      rw [List.mem_map] at hx hy
      obtain ⟨p, _, rfl⟩ := hx
      obtain ⟨q, _, hq⟩ := hy
      have h1 : jc.1 = ic.1 := by injection hq
      exact hne h1.symm

/-- C1: `search_sentence_for_pattern` is the sum, over all nodes of the
tree found by full depth-first traversal whose attributes match the
pattern's `common_ancestor` spec, of the product of the numbers of
descent paths below the node satisfying `branch1` and `branch2`; these
path lists are duplicate-free, so the counts are numbers of distinct
descent paths. -/
theorem search_pattern_counts (t : STree) (pat : Pattern) :
    search_sentence_for_pattern t pat =
      ((allNodes t).map (fun n =>
        if match_node_pattern n.attrs pat.common_ancestor.toPat
        then (branch_paths n (pat.branch1.map BranchSpecItem.toPat)).length *
             (branch_paths n (pat.branch2.map BranchSpecItem.toPat)).length
        else 0)).sum ∧
    ∀ n ∈ allNodes t,
      (branch_paths n (pat.branch1.map BranchSpecItem.toPat)).Nodup ∧
      (branch_paths n (pat.branch2.map BranchSpecItem.toPat)).Nodup := by
  constructor
  · show ((search_sentence_for_node t pat.common_ancestor.toPat).map
        (fun m => follow_branch m (pat.branch1.map BranchSpecItem.toPat) *
          follow_branch m (pat.branch2.map BranchSpecItem.toPat))).sum = _
    rw [search_eq_filter, sum_map_filter_eq]
    congr 1
    apply List.map_congr_left
    intro n _
    rw [follow_branch_eq_length, follow_branch_eq_length]
  · intro n _
    exact ⟨branch_paths_nodup _ n, branch_paths_nodup _ n⟩

/-- C4: an empty branch spec always counts 1; a non-empty branch spec
whose first entry matches no child of the node counts 0, and then the
fork's contribution `branch1_count * branch2_count` is 0 no matter what
the other branch would count. -/
theorem follow_branch_zero_boundary (n : STree) (s0 : NodePat)
    (rest branch2 : List NodePat)
    (h : ∀ c ∈ n.children, ¬ match_node_pattern c.attrs s0 = true) :
    follow_branch n [] = 1 ∧ follow_branch n (s0 :: rest) = 0 ∧
      follow_branch n (s0 :: rest) * follow_branch n branch2 = 0 := by
  have hms : n.children.filter (fun c => match_node_pattern c.attrs s0) = [] :=
    List.filter_eq_nil_iff.mpr h
  have h0 : follow_branch n (s0 :: rest) = 0 := by
    rw [follow_branch_cons, hms]
    rfl
  exact ⟨rfl, h0, by rw [h0, Nat.zero_mul]⟩

/-- Witness for C4: no child of `exTree` is a VERB, so the branch spec
`[{pos VERB}]` counts 0 from the root and zeroes the contribution. -/
theorem follow_branch_zero_boundary_witness :
    (∀ c ∈ exTree.children,
      ¬ match_node_pattern c.attrs [(Attr.pos_, "VERB")] = true) ∧
    follow_branch exTree [] = 1 ∧
    follow_branch exTree [[(Attr.pos_, "VERB")]] = 0 ∧
    follow_branch exTree [[(Attr.pos_, "VERB")]] *
      follow_branch exTree [[(Attr.pos_, "NOUN"), (Attr.dep_, "dobj")]] = 0 :=
  ⟨by decide,
    follow_branch_zero_boundary exTree [(Attr.pos_, "VERB")] []
      [[(Attr.pos_, "NOUN"), (Attr.dep_, "dobj")]] (by decide)⟩

/-! ## Label invariance of the matcher (the matcher never reads `orth_`) -/

theorem match_anc_eq (s : AncSpec) {x y : Attrs} (hp : x.pos_ = y.pos_)
    (hl : x.lemma_ = y.lemma_) :
    match_node_pattern x s.toPat = match_node_pattern y s.toPat := by
  simp [match_node_pattern, AncSpec.toPat, getattr, hp, hl]

theorem match_branch_eq (s : BranchSpecItem) {x y : Attrs}
    (hp : x.pos_ = y.pos_) (hd : x.dep_ = y.dep_) :
    match_node_pattern x s.toPat = match_node_pattern y s.toPat := by
  simp [match_node_pattern, BranchSpecItem.toPat, getattr, hp, hd]

theorem sameLabels_fields : ∀ {t1 t2 : STree}, sameLabels t1 t2 = true →
    t1.attrs.pos_ = t2.attrs.pos_ ∧ t1.attrs.dep_ = t2.attrs.dep_ ∧
      t1.attrs.lemma_ = t2.attrs.lemma_ ∧
      sameLabelsList t1.children t2.children = true := by
  intro t1 t2 h
  cases t1 with
  | mk a cs =>
    cases t2 with
    | mk b ds =>
      rw [sameLabels] at h
      simp only [Bool.and_eq_true, beq_iff_eq] at h
      exact ⟨h.1.1.1, h.1.1.2, h.1.2, h.2⟩

theorem sameLabelsList_cons {c d : STree} {cs ds : List STree}
    (h : sameLabelsList (c :: cs) (d :: ds) = true) :
    sameLabels c d = true ∧ sameLabelsList cs ds = true := by
  rw [sameLabelsList] at h
  simpa using h

theorem sameLabelsList_nil_cons (d : STree) (ds : List STree) :
    sameLabelsList [] (d :: ds) = false := by
  unfold sameLabelsList
  rfl

theorem sameLabelsList_cons_nil (c : STree) (cs : List STree) :
    sameLabelsList (c :: cs) [] = false := by
  unfold sameLabelsList
  rfl

/-- `follow_branch` along a branch spec reads only `pos_` and `dep_`, so
it is invariant under `sameLabels`. -/
theorem follow_branch_sameLabels :
    ∀ (specs : List BranchSpecItem) {n1 n2 : STree},
      sameLabels n1 n2 = true →
      follow_branch n1 (specs.map BranchSpecItem.toPat) =
        follow_branch n2 (specs.map BranchSpecItem.toPat) := by
  intro specs
  induction specs with
  | nil => intro n1 n2 _; rfl
  | cons s0 srest ih =>
    intro n1 n2 h
    rw [List.map_cons, follow_branch_cons, follow_branch_cons]
    have hkids := (sameLabels_fields h).2.2.2
    suffices H : ∀ cs ds : List STree, sameLabelsList cs ds = true →
        ((cs.filter (fun c => match_node_pattern c.attrs s0.toPat)).map
          (fun m => follow_branch m (srest.map BranchSpecItem.toPat))) =
        ((ds.filter (fun c => match_node_pattern c.attrs s0.toPat)).map
          (fun m => follow_branch m (srest.map BranchSpecItem.toPat))) by
      rw [H n1.children n2.children hkids]
    intro cs
    induction cs with
    | nil =>
      intro ds hds
      cases ds with
      | nil => rfl
      | cons d ds =>
        rw [sameLabelsList_nil_cons] at hds
        exact absurd hds (by simp)
    | cons c cs ihc =>
      intro ds hds
      cases ds with
      | nil =>
        rw [sameLabelsList_cons_nil] at hds
        exact absurd hds (by simp)
      | cons d ds =>
        obtain ⟨hcd, hrest⟩ := sameLabelsList_cons hds
        have hflds := sameLabels_fields hcd
        rw [List.filter_cons, List.filter_cons]
        have hmeq : match_node_pattern c.attrs s0.toPat =
            match_node_pattern d.attrs s0.toPat :=
          match_branch_eq s0 hflds.1 hflds.2.1
        rw [hmeq]
        by_cases hm : match_node_pattern d.attrs s0.toPat
        · rw [if_pos hm, if_pos hm, List.map_cons, List.map_cons,
            ih hcd, ihc ds hrest]
        · rw [if_neg hm, if_neg hm, ihc ds hrest]

/-- `search_sentence_for_pattern` splits into the contribution of the
root and the recursive contribution of each child subtree. -/
theorem search_pattern_decomp (a : Attrs) (cs : List STree) (pat : Pattern) :
    search_sentence_for_pattern (STree.mk a cs) pat =
      (if match_node_pattern a pat.common_ancestor.toPat
       then follow_branch (STree.mk a cs)
              (pat.branch1.map BranchSpecItem.toPat) *
            follow_branch (STree.mk a cs)
              (pat.branch2.map BranchSpecItem.toPat)
       else 0) +
      (cs.map (fun c => search_sentence_for_pattern c pat)).sum := by
  show ((search_sentence_for_node (STree.mk a cs)
      pat.common_ancestor.toPat).map
      (fun m => follow_branch m (pat.branch1.map BranchSpecItem.toPat) *
        follow_branch m (pat.branch2.map BranchSpecItem.toPat))).sum = _
  rw [search_sentence_for_node_unfold, List.map_append, List.sum_append]
  congr 1
  · by_cases hm : match_node_pattern a pat.common_ancestor.toPat
    · rw [if_pos hm, if_pos hm]
      simp
    · rw [if_neg hm, if_neg hm]
      rfl
  · rw [List.map_flatten, List.map_map, List.sum_flatten, List.map_map]
    rfl

/-- C9: on two sentence trees of the same shape carrying the same
`pos_`, `dep_` and `lemma_` labels on corresponding nodes — differing
only in the literal token text — `search_sentence_for_pattern` returns
the same count for every pattern: matching never reads the literal
text. -/
theorem countMatches_label_invariant :
    ∀ (t1 t2 : STree) (pat : Pattern), sameLabels t1 t2 = true →
      search_sentence_for_pattern t1 pat =
        search_sentence_for_pattern t2 pat := by
  intro t1
  induction t1 using STree.ind with
  | h a cs ih =>
    intro t2 pat h
    cases t2 with
    | mk b ds =>
      have hflds := sameLabels_fields h
      have hkids := hflds.2.2.2
      rw [search_pattern_decomp, search_pattern_decomp]
      congr 1
      · rw [match_anc_eq pat.common_ancestor
          (x := a) (y := b) hflds.1 hflds.2.2.1]
        by_cases hm : match_node_pattern b pat.common_ancestor.toPat
        · rw [if_pos hm, if_pos hm,
            follow_branch_sameLabels pat.branch1 h,
            follow_branch_sameLabels pat.branch2 h]
        · rw [if_neg hm, if_neg hm]
      · have H : ∀ cs2 ds2 : List STree,
            (∀ c ∈ cs2, ∀ t2 pat2, sameLabels c t2 = true →
              search_sentence_for_pattern c pat2 =
                search_sentence_for_pattern t2 pat2) →
            sameLabelsList cs2 ds2 = true →
            (cs2.map (fun c => search_sentence_for_pattern c pat)).sum =
              (ds2.map (fun c => search_sentence_for_pattern c pat)).sum := by
          intro cs2
          induction cs2 with
          | nil =>
            intro ds2 _ hds
            cases ds2 with
            | nil => rfl
            | cons d ds2 =>
              rw [sameLabelsList_nil_cons] at hds
              exact absurd hds (by simp)
          | cons c cs2 ihc =>
            intro ds2 hmem hds
            cases ds2 with
            | nil =>
        rw [sameLabelsList_cons_nil] at hds
        exact absurd hds (by simp)
            | cons d ds2 =>
              obtain ⟨hcd, hrest⟩ := sameLabelsList_cons hds
              rw [List.map_cons, List.map_cons, List.sum_cons, List.sum_cons,
                hmem c (by simp) d pat hcd,
                ihc ds2 (fun x hx => hmem x (by simp [hx])) hrest]
        exact H cs ds (fun c hc t2 pat2 hsl => ih c hc t2 pat2 hsl) hkids

/-- Witness for C9: `exTree` and the same sentence with all literal
texts renamed give the same count for the `exTree`-extracted pattern. -/
theorem countMatches_label_invariant_witness :
    sameLabels exTree
      (STree.mk ⟨"x", "VERB", "ROOT", "raise"⟩
        [STree.mk ⟨"y", "NOUN", "nsubj", "balderton"⟩ [],
         STree.mk ⟨"z", "NOUN", "dobj", "startup"⟩ []]) = true ∧
    search_sentence_for_pattern exTree
        ⟨⟨"VERB", "raise"⟩, [⟨"NOUN", "nsubj"⟩], [⟨"NOUN", "dobj"⟩]⟩ =
      search_sentence_for_pattern
        (STree.mk ⟨"x", "VERB", "ROOT", "raise"⟩
          [STree.mk ⟨"y", "NOUN", "nsubj", "balderton"⟩ [],
           STree.mk ⟨"z", "NOUN", "dobj", "startup"⟩ []])
        ⟨⟨"VERB", "raise"⟩, [⟨"NOUN", "nsubj"⟩], [⟨"NOUN", "dobj"⟩]⟩ :=
  ⟨by simp [exTree, sameLabels, sameLabelsList],
    countMatches_label_invariant exTree
      (STree.mk ⟨"x", "VERB", "ROOT", "raise"⟩
        [STree.mk ⟨"y", "NOUN", "nsubj", "balderton"⟩ [],
         STree.mk ⟨"z", "NOUN", "dobj", "startup"⟩ []])
      ⟨⟨"VERB", "raise"⟩, [⟨"NOUN", "nsubj"⟩], [⟨"NOUN", "dobj"⟩]⟩
      (by simp [exTree, sameLabels, sameLabelsList])⟩

/-! ## The self-match property -/

theorem nodeAt_append : ∀ (p q : List Nat) (t : STree),
    nodeAt t (p ++ q) = (nodeAt t p).bind (fun n => nodeAt n q) := by
  intro p
  induction p with
  | nil => intro q t; rfl
  | cons i p ih =>
    intro q t
    rw [List.cons_append]
    show (match t.children[i]? with
      | some c => nodeAt c (p ++ q)
      | none => none) = (match t.children[i]? with
        | some c => nodeAt c p
        | none => none).bind (fun n => nodeAt n q)
    cases hc : t.children[i]? with
    | none => rfl
    | some c => exact ih q c

theorem nodeAt_mem_allNodes : ∀ (p : List Nat) (t n : STree),
    nodeAt t p = some n → n ∈ allNodes t := by
  intro p
  induction p with
  | nil =>
    intro t n h
    cases t with
    | mk a cs =>
      have hn : STree.mk a cs = n := by
        have : some (STree.mk a cs) = some n := h
        injection this
      subst hn
      rw [allNodes_unfold]
      exact List.mem_cons_self _ _
  | cons i p ih =>
    intro t n h
    cases t with
    | mk a cs =>
      have h' : (match (STree.mk a cs).children[i]? with
          | some c => nodeAt c p
          | none => none) = some n := h
      cases hc : (STree.mk a cs).children[i]? with
      | none =>
        rw [hc] at h'
        exact Option.noConfusion h'
      | some c =>
        rw [hc] at h'
        have hcmem : c ∈ cs := List.getElem?_mem hc
        rw [allNodes_unfold]
        exact List.mem_cons_of_mem _
          (List.mem_flatten_of_mem (List.mem_map_of_mem allNodes hcmem)
            (ih c n h'))

theorem stepsFrom_snoc : ∀ (s f : List Nat) (i : Nat),
    stepsFrom f (s ++ [i]) = stepsFrom f s ++ [f ++ s ++ [i]] := by
  intro s
  induction s with
  | nil => intro f i; simp [stepsFrom]
  | cons j s ih =>
    intro f i
    rw [List.cons_append]
    show (f ++ [j]) :: stepsFrom (f ++ [j]) (s ++ [i]) = _
    rw [ih (f ++ [j]) i]
    show _ = ((f ++ [j]) :: stepsFrom (f ++ [j]) s) ++ [f ++ (j :: s) ++ [i]]
    simp

theorem belowRev_reverse_eq : ∀ (s f : List Nat),
    (belowRev (f ++ s) f).reverse = stepsFrom f s := by
  intro s
  induction s using List.reverseRecOn with
  | nil =>
    intro f
    rw [List.append_nil, belowRev_of_le le_rfl]
    rfl
  | append_singleton s' i ih =>
    intro f
    have hlen : f.length < (f ++ (s' ++ [i])).length := by
      simp
    rw [belowRev_of_gt hlen]
    have hdl : (f ++ (s' ++ [i])).dropLast = f ++ s' := by
      rw [← List.append_assoc, List.dropLast_concat]
    rw [hdl, List.reverse_cons, ih f, stepsFrom_snoc, List.append_assoc]

/-- `ns` are the nodes along `stepsFrom f s`, and they form a descent. -/
theorem stepsFrom_mapM (t : STree) : ∀ (s f : List Nat) (nf : STree),
    nodeAt t f = some nf → (nodeAt t (f ++ s)).isSome = true →
    ∃ ns, (stepsFrom f s).mapM (nodeAt t) = some ns ∧ IsDescent nf ns := by
  intro s
  induction s with
  | nil =>
    intro f nf _ _
    exact ⟨[], rfl, trivial⟩
  | cons i s ih =>
    intro f nf hf hval
    have hsplit : f ++ (i :: s) = (f ++ [i]) ++ s := by simp
    rw [hsplit] at hval
    have hval2 := hval
    rw [nodeAt_append] at hval2
    cases hc : nodeAt t (f ++ [i]) with
    | none => rw [hc] at hval2; exact absurd hval2 (by simp)
    | some c =>
      have hchild : c ∈ nf.children := by
        have h1 : nodeAt t (f ++ [i]) = (nodeAt t f).bind
            (fun n => nodeAt n [i]) := nodeAt_append f [i] t
        rw [hf] at h1
        have h2 : nodeAt nf [i] = some c := by
          rw [hc] at h1
          exact h1.symm
        have h3 : (match nf.children[i]? with
            | some c => some c
            | none => none) = some c := h2
        cases hcc : nf.children[i]? with
        | none => rw [hcc] at h3; exact Option.noConfusion h3
        | some c2 =>
          rw [hcc] at h3
          have : c2 = c := by injection h3
          exact this ▸ List.getElem?_mem hcc
      obtain ⟨ns, hns, hdesc⟩ := ih (f ++ [i]) c hc hval
      refine ⟨c :: ns, ?_, hchild, hdesc⟩
      rw [stepsFrom]
      rw [List.mapM_cons, hc, hns]
      rfl

/-- Descending along the nodes of a branch and matching each node's own
`{pos, dep}` spec always succeeds at least once. -/
theorem follow_ge_one : ∀ (ns : List STree) (n : STree), IsDescent n ns →
    1 ≤ follow_branch n ((ns.map (fun node =>
      ({ pos_ := node.attrs.pos_, dep_ := node.attrs.dep_ }
        : BranchSpecItem))).map BranchSpecItem.toPat) := by
  intro ns
  induction ns with
  | nil => intro n _; exact le_rfl
  | cons c rest ih =>
    intro n hdesc
    obtain ⟨hc, hrest⟩ := hdesc
    rw [List.map_cons, List.map_cons, follow_branch_cons]
    have hmatch : match_node_pattern c.attrs
        (BranchSpecItem.toPat
          { pos_ := c.attrs.pos_, dep_ := c.attrs.dep_ }) = true := by
      simp [match_node_pattern, BranchSpecItem.toPat, getattr]
    have hcf : c ∈ n.children.filter (fun x => match_node_pattern x.attrs
        (BranchSpecItem.toPat
          { pos_ := c.attrs.pos_, dep_ := c.attrs.dep_ })) :=
      List.mem_filter.mpr ⟨hc, hmatch⟩
    have hterm := List.mem_map_of_mem
      (fun m => follow_branch m ((rest.map (fun node =>
        ({ pos_ := node.attrs.pos_, dep_ := node.attrs.dep_ }
          : BranchSpecItem))).map BranchSpecItem.toPat)) hcf
    exact le_trans (ih c hrest) (List.le_sum_of_mem hterm)

/-- C6: replaying the pattern extracted from any relationship of a
sentence against that same sentence matches at least once. -/
theorem self_match (t : STree) (p1 p2 : List Nat)
    (h1 : (nodeAt t p1).isSome = true) (h2 : (nodeAt t p2).isSome = true) :
    ∃ r pat, Relationship.init p1 p2 = Except.ok r ∧
      matching_pattern t r = some pat ∧
      1 ≤ search_sentence_for_pattern t pat := by
  obtain ⟨s, hs⟩ := lcp_isPre_left p1 p2
  have hvalL : ∃ nf, nodeAt t (lcp p1 p2) = some nf := by
    rw [← hs, nodeAt_append] at h1
    cases hc : nodeAt t (lcp p1 p2) with
    | none => rw [hc] at h1; exact absurd h1 (by simp)
    | some nf => exact ⟨nf, rfl⟩
  obtain ⟨nf, hnf⟩ := hvalL
  have hval1 : (nodeAt t (lcp p1 p2 ++ s)).isSome = true := by
    rw [hs]; exact h1
  obtain ⟨ns, hns, hdesc⟩ := stepsFrom_mapM t s (lcp p1 p2) nf hnf hval1
  have hb1 := belowRev_reverse_eq s (lcp p1 p2)
  rw [hs] at hb1
  refine ⟨⟨p1, p2, (selfToRootChain (lcp p1 p2)).reverse,
      (belowRev p1 (lcp p1 p2)).reverse, (belowRev p2 (lcp p1 p2)).reverse⟩,
    { common_ancestor := { pos_ := nf.attrs.pos_, lemma_ := nf.attrs.lemma_ }
      branch1 := ns.map (fun node =>
        { pos_ := node.attrs.pos_, dep_ := node.attrs.dep_ })
      branch2 := ns.map (fun node =>
        { pos_ := node.attrs.pos_, dep_ := node.attrs.dep_ }) },
    Relationship.init_eq p1 p2, ?_, ?_⟩
  · show (forking_node _).bind _ = _
    rw [forking_node]
    simp only [List.getLast?_reverse, head?_selfToRootChain, Option.some_bind]
    rw [hb1, hns, hnf]
    rfl
  · have hforkmem : nf ∈ search_sentence_for_node t
        (AncSpec.toPat { pos_ := nf.attrs.pos_, lemma_ := nf.attrs.lemma_ }) := by
      rw [search_eq_filter]
      refine List.mem_filter.mpr ⟨nodeAt_mem_allNodes _ t nf hnf, ?_⟩
      simp [match_node_pattern, AncSpec.toPat, getattr]
    have hprod : 1 ≤ follow_branch nf ((ns.map (fun node =>
          ({ pos_ := node.attrs.pos_, dep_ := node.attrs.dep_ }
            : BranchSpecItem))).map BranchSpecItem.toPat) *
        follow_branch nf ((ns.map (fun node =>
          ({ pos_ := node.attrs.pos_, dep_ := node.attrs.dep_ }
            : BranchSpecItem))).map BranchSpecItem.toPat) :=
      Nat.one_le_iff_ne_zero.mpr (Nat.mul_ne_zero
        (Nat.one_le_iff_ne_zero.mp (follow_ge_one ns nf hdesc))
        (Nat.one_le_iff_ne_zero.mp (follow_ge_one ns nf hdesc)))
    have hterm := List.mem_map_of_mem
      (fun m => follow_branch m ((ns.map (fun node =>
          ({ pos_ := node.attrs.pos_, dep_ := node.attrs.dep_ }
            : BranchSpecItem))).map BranchSpecItem.toPat) *
        follow_branch m ((ns.map (fun node =>
          ({ pos_ := node.attrs.pos_, dep_ := node.attrs.dep_ }
            : BranchSpecItem))).map BranchSpecItem.toPat)) hforkmem
    exact le_trans hprod (List.le_sum_of_mem hterm)

/-- Witness for C6 at a concrete tree and node pair. -/
theorem self_match_witness :
    (nodeAt exTree [0]).isSome = true ∧
    ∃ r pat, Relationship.init [0] [1] = Except.ok r ∧
      matching_pattern exTree r = some pat ∧
      1 ≤ search_sentence_for_pattern exTree pat :=
  ⟨by simp [nodeAt, exTree],
    self_match exTree [0] [1] (by simp [nodeAt, exTree])
      (by simp [nodeAt, exTree])⟩

/-- C2: at the concrete sentence `exTree`, with the relationship between
its two children, `matching_pattern` emits `branch1`'s `{pos, dep}`
sequence under the `branch2` key (line 88 of the source reads
`self.branch1`), although the stored `branch2` node is
`B(pos=NOUN, dep=dobj)` whose spec would be `[{NOUN, dobj}]`: the
emitted `branch2` spec is not the generalization of `branch2`. -/
theorem matching_pattern_branch2_from_branch1 :
    ∃ r pat, Relationship.init [0] [1] = Except.ok r ∧
      matching_pattern exTree r = some pat ∧
      r.branch2 = [[1]] ∧
      nodeAt exTree [1] =
        some (STree.mk ⟨"startup", "NOUN", "dobj", "startup"⟩ []) ∧
      pat.branch1 = [⟨"NOUN", "nsubj"⟩] ∧
      pat.branch2 = [⟨"NOUN", "nsubj"⟩] ∧
      pat.branch2 ≠ [⟨"NOUN", "dobj"⟩] := by
  refine ⟨⟨[0], [1], [[]], [[0]], [[1]]⟩,
    ⟨⟨"VERB", "raise"⟩, [⟨"NOUN", "nsubj"⟩], [⟨"NOUN", "nsubj"⟩]⟩,
    ?_, rfl, rfl, rfl, rfl, rfl, ?_⟩
  · rw [Relationship.init_eq]
    simp [lcp, selfToRootChain, belowRev]
  · simp

end TemplateExtraction
